import Mathlib

/-!
Verification development for the slipsomat letter-template synchronization
tool.  The interactive shell layer is translated from
`src/slipsomat/shell.py`.  The synchronization core (status ledger, local
repository, remote template store and the pull/push orchestration) is not
part of the analysed sources, so it is modelled from the specification
(sections 3, 4 and 7 of the design document); those definitions carry a
`Modelled from the spec:` doc comment.
-/

set_option autoImplicit false

namespace Slipsomat

/-! ## Core data model (spec-modelled) -/

abbrev Path := String

abbrev Content := String

abbrev Fingerprint := String

/-- Modelled from the spec: a fingerprint is a deterministic,
collision-resistant content hash of a file's bytes.  We idealize the hash as
an injective function of the content, taking the content itself as its own
fingerprint. -/
def fingerprintOf (c : Content) : Fingerprint := c

/-- Modelled from the spec: one entry of the remote template collection as
returned by `RemoteTemplateStore.list()`: path, current content (hence
current fingerprint) and the vendor-default flag. -/
structure RemoteEntry where
  path : Path
  content : Content
  isDefault : Bool
  deriving DecidableEq

/-- Lookup in an association list keyed by paths (first matching key wins). -/
def assocGet {α : Type} : List (Path × α) → Path → Option α
  | [], _ => none
  | e :: t, p => if e.1 = p then some e.2 else assocGet t p

/-- Update or insert a binding in an association list keyed by paths. -/
def assocSet {α : Type} : List (Path × α) → Path → α → List (Path × α)
  | [], p, v => [(p, v)]
  | e :: t, p, v => if e.1 = p then (p, v) :: t else e :: assocSet t p v

/-- Lookup of a remote entry by path (first matching entry wins). -/
def remoteGet : List RemoteEntry → Path → Option RemoteEntry
  | [], _ => none
  | e :: t, p => if e.path = p then some e else remoteGet t p

/-- Overwrite (or create, as non-default) the remote entry at a path.
Modelled from the spec: `put(path, bytes)` overwrites or creates the remote
entry. -/
def remotePut : List RemoteEntry → Path → Content → List RemoteEntry
  | [], p, c => [⟨p, c, false⟩]
  | e :: t, p, c => if e.path = p then ⟨p, c, e.isDefault⟩ :: t else e :: remotePut t p c

/-- Modelled from the spec: the combined state the three stores expose to the
orchestrator.  `localFiles` is the local repository (path to bytes),
`remote` the remote template collection, `ledger` the status ledger (path to
fingerprint recorded at last successful sync).  `rejects` lists the
path/content pairs the remote service rejects with `RemoteRejected`, and
`ioFailures` the local paths whose write fails with `IOError`; both model
the failure behaviour of the otherwise-opaque collaborators. -/
structure World where
  localFiles : List (Path × Content)
  remote : List RemoteEntry
  ledger : List (Path × Fingerprint)
  rejects : List (Path × Content)
  ioFailures : List Path
  deriving DecidableEq

def World.localContent (w : World) (p : Path) : Option Content :=
  assocGet w.localFiles p

/-- Modelled from the spec: `localFingerprint` of a path, `absent` (none)
when the file does not exist locally. -/
def World.localFp (w : World) (p : Path) : Option Fingerprint :=
  (w.localContent p).map fingerprintOf

def World.remoteEntry (w : World) (p : Path) : Option RemoteEntry :=
  remoteGet w.remote p

/-- Modelled from the spec: `remoteFingerprint` of a path, `absent` (none)
when no such remote entry exists. -/
def World.remoteFp (w : World) (p : Path) : Option Fingerprint :=
  (w.remoteEntry p).map (fun e => fingerprintOf e.content)

/-- Modelled from the spec: `ledgerFingerprint` of a path, `absent` (none)
before first sync. -/
def World.ledgerFp (w : World) (p : Path) : Option Fingerprint :=
  assocGet w.ledger p

def World.writeLocal (w : World) (p : Path) (c : Content) : World :=
  { w with localFiles := assocSet w.localFiles p c }

def World.setLedger (w : World) (p : Path) (f : Fingerprint) : World :=
  { w with ledger := assocSet w.ledger p f }

def World.putRemote (w : World) (p : Path) (c : Content) : World :=
  { w with remote := remotePut w.remote p c }

/-- Modelled from the spec: the derived sync states of an entry, computed
from the three fingerprints and never stored.  `bothChangedSame` is the
residual case (both sides diverged from the ledger but agree with each
other), which none of the named states of the spec covers. -/
inductive EntryState where
  | unchanged
  | locallyModified
  | remotelyModified
  | conflicted
  | newDefault
  | bothChangedSame
  deriving DecidableEq

/-- Modelled from the spec: classification of an entry from its local,
remote and ledger fingerprints. -/
def classify (lf rf gf : Option Fingerprint) : EntryState :=
  if gf = none ∧ rf ≠ none ∧ lf = none then EntryState.newDefault
  else if lf = gf ∧ rf = gf then EntryState.unchanged
  else if lf ≠ gf ∧ rf = gf then EntryState.locallyModified
  else if rf ≠ gf ∧ lf = gf then EntryState.remotelyModified
  else if lf ≠ gf ∧ rf ≠ gf ∧ lf ≠ rf then EntryState.conflicted
  else EntryState.bothChangedSame

/-- Modelled from the spec: the structured per-entry reports of the
orchestration operations — a conflict carries the path and both live
fingerprints; the failure reports carry the affected path. -/
inductive Report where
  | conflict (p : Path) (lf rf : Option Fingerprint)
  | remoteRejected (p : Path)
  | localNotFound (p : Path)
  | localIoError (p : Path)
  deriving DecidableEq

/-- Result of one orchestration operation: the final state of the three
stores, the structured reports produced, and the paths whose apply step
succeeded (local writes for pull, remote puts for push). -/
structure OpResult where
  world : World
  reports : List Report
  writes : List Path
  deriving DecidableEq

/-- Modelled from the spec: the apply step of pull for one remote entry —
fetch the remote content, write it locally (failing with `IOError` on the
paths the local filesystem rejects) and, only on success, advance the
ledger fingerprint to the remote fingerprint. -/
def pullApply (w : World) (e : RemoteEntry) : OpResult :=
  if e.path ∈ w.ioFailures then ⟨w, [Report.localIoError e.path], []⟩
  else ⟨(w.writeLocal e.path e.content).setLedger e.path (fingerprintOf e.content), [],
        [e.path]⟩

/-- Modelled from the spec: pull's decision for one remote entry.  For
`remotelyModified` and `newDefault` entries the remote content is applied;
for `conflicted` entries the conflict is surfaced (path, local fingerprint,
remote fingerprint) and nothing is touched; every other state is left
alone. -/
def pullOne (w : World) (e : RemoteEntry) : OpResult :=
  match classify (w.localFp e.path) (some (fingerprintOf e.content)) (w.ledgerFp e.path) with
  | EntryState.remotelyModified => pullApply w e
  | EntryState.newDefault => pullApply w e
  | EntryState.conflicted =>
      ⟨w, [Report.conflict e.path (w.localFp e.path) (some (fingerprintOf e.content))], []⟩
  | _ => ⟨w, [], []⟩

def pullStep (acc : OpResult) (e : RemoteEntry) : OpResult :=
  ⟨(pullOne acc.world e).world,
   acc.reports ++ (pullOne acc.world e).reports,
   acc.writes ++ (pullOne acc.world e).writes⟩

/-- Modelled from the spec: `pull(table, localRepo, ledger)` processes every
remote entry that is not a vendor default, one at a time
(apply-then-record-then-continue). -/
def pull (w : World) : OpResult :=
  (w.remote.filter (fun e => !e.isDefault)).foldl pullStep ⟨w, [], []⟩

/-- Modelled from the spec: push's decision for one selected path.
`conflicted` entries are refused with a conflict report; `locallyModified`
entries and entries with no remote counterpart are read locally and put
remotely (`RemoteRejected` puts leave everything untouched), with the ledger
advanced to the freshly-computed local fingerprint only on success;
`remotelyModified` entries are treated as a conflict requiring a pull first;
everything else is a no-op. -/
def pushOne (w : World) (p : Path) : OpResult :=
  if classify (w.localFp p) (w.remoteFp p) (w.ledgerFp p) = EntryState.conflicted then
    ⟨w, [Report.conflict p (w.localFp p) (w.remoteFp p)], []⟩
  else if classify (w.localFp p) (w.remoteFp p) (w.ledgerFp p) = EntryState.locallyModified
      ∨ w.remoteFp p = none then
    match w.localContent p with
    | none => ⟨w, [Report.localNotFound p], []⟩
    | some bytes =>
        if (p, bytes) ∈ w.rejects then ⟨w, [Report.remoteRejected p], []⟩
        else ⟨(w.putRemote p bytes).setLedger p (fingerprintOf bytes), [], [p]⟩
  else if classify (w.localFp p) (w.remoteFp p) (w.ledgerFp p) = EntryState.remotelyModified then
    ⟨w, [Report.conflict p (w.localFp p) (w.remoteFp p)], []⟩
  else ⟨w, [], []⟩

def pushStep (acc : OpResult) (p : Path) : OpResult :=
  ⟨(pushOne acc.world p).world,
   acc.reports ++ (pushOne acc.world p).reports,
   acc.writes ++ (pushOne acc.world p).writes⟩

/-- Modelled from the spec: `push(table, localRepo, ledger, selectedPaths)`
over an already-resolved, possibly empty, explicit list of selected paths
(interactive selection is a shell concern outside the core). -/
def push (w : World) (paths : List Path) : OpResult :=
  paths.foldl pushStep ⟨w, [], []⟩

/-- A concrete store state with one non-default entry whose local and remote
sides have both diverged from the ledger and from each other. -/
def conflictWorld : World :=
  { localFiles := [("a", "L1")], remote := [⟨"a", "R2", false⟩],
    ledger := [("a", "H0")], rejects := [], ioFailures := [] }

/-- The single remote entry of conflictWorld. -/
def conflictEntry : RemoteEntry := ⟨"a", "R2", false⟩

/-- A concrete store state with one locally modified entry that the remote
service accepts. -/
def localEditWorld : World :=
  { localFiles := [("a", "new")], remote := [⟨"a", "old", false⟩],
    ledger := [("a", "old")], rejects := [], ioFailures := [] }

/-- A concrete store state with one remotely modified entry and one vendor
default entry. -/
def remoteEditWorld : World :=
  { localFiles := [("a", "H0")], remote := [⟨"a", "H1", false⟩, ⟨"d", "D", true⟩],
    ledger := [("a", "H0")], rejects := [], ioFailures := [] }

/-! ## Shell layer (translated from src/slipsomat/shell.py) -/

/-- The whitespace characters stripped by Python str.strip: space, tab,
newline, carriage return, vertical tab and form feed. -/
def wsChars : List Char :=
  [Char.ofNat 32, Char.ofNat 9, Char.ofNat 10, Char.ofNat 13, Char.ofNat 11, Char.ofNat 12]

/-- Whether Python str.strip removes this character. -/
def isPySpace (c : Char) : Bool := c ∈ wsChars

/-- Modelled from Python str.strip with no argument: remove leading and
trailing whitespace. -/
def pyStrip (s : String) : String :=
  ⟨((s.data.dropWhile isPySpace).reverse.dropWhile isPySpace).reverse⟩

/-- Modelled from Python str.split with a one-character separator: cut at
every occurrence, keeping empty pieces. -/
def pySplitGo (sep : Char) : List Char → String → List String
  | [], cur => [cur]
  | c :: rest, cur =>
      if c = sep then cur :: pySplitGo sep rest ""
      else pySplitGo sep rest (cur.push c)

/-- Modelled from Python str.split with a one-character separator. -/
def pySplit (sep : Char) (s : String) : List String := pySplitGo sep s.data ""

/-- Python os.path.join for two forward-slash segments: an absolute second
segment replaces the first. -/
def ospathJoin (a b : String) : String :=
  if b.data.head? = some (Char.ofNat 47) then b
  else if a.data.getLast? = some (Char.ofNat 47) then a ++ b
  else a ++ "/" ++ b

/-- Result of `Shell.do_test` (shell.py lines 120-133): `valueError` when the
tuple unpacking of `arg.split` on the at-sign raises ValueError (the argument
holds more than one at-sign), `noSuchFile` when the glob matched nothing (an
error is printed and the method returns without calling the test operation),
and `run files languages` when `execute(test, testpage, files, languages)` is
reached. -/
inductive DoTestResult where
  | valueError
  | noSuchFile
  | run (files : List String) (languages : List String)
  deriving DecidableEq

/-- Shared tail of `Shell.do_test` (shell.py lines 126-133): split the
language spec on commas, glob the pattern under the test-data directory, and
either report `Error: No such file` or run the test operation.  The argument
`g` models the composition of `glob` with `os.path.abspath`. -/
def doTestRun (g : String → List String) (filesArg languagesArg : String) : DoTestResult :=
  if (g (ospathJoin "test-data" filesArg)).length = 0 then DoTestResult.noSuchFile
  else DoTestResult.run (g (ospathJoin "test-data" filesArg))
    (pySplit (Char.ofNat 44) languagesArg)

/-- Translated from `Shell.do_test` (shell.py lines 120-133).  Matching on
the at-sign split mirrors the source: a single piece is the no-at-sign case
(language spec defaults to "en"), two pieces correspond to the tuple
unpacking of `files, languages = arg.split` at the at-sign, and any other
number of pieces makes that unpacking raise ValueError. -/
def do_test (g : String → List String) (arg : String) : DoTestResult :=
  match pySplit (Char.ofNat 64) arg with
  | [files] => doTestRun g files "en"
  | [files, languages] => doTestRun g files languages
  | _ => DoTestResult.valueError

/-- The single-quote character. -/
def squote : Char := Char.ofNat 39

/-- The double-quote character. -/
def dquote : Char := Char.ofNat 34

/-- The backslash character. -/
def bslash : Char := Char.ofNat 92

/-- The whitespace characters of the Python shlex lexer: space, tab,
carriage return and newline. -/
def spaceChars : List Char := [Char.ofNat 32, Char.ofNat 9, Char.ofNat 13, Char.ofNat 10]

/-- Lexer states of the shlex model: outside quotes, inside single quotes,
inside double quotes, after a backslash outside quotes, and after a
backslash inside double quotes. -/
inductive LexState where
  | noQ
  | singleQ
  | doubleQ
  | escaped
  | escapedDoubleQ
  deriving DecidableEq

/-- Modelled from the Python standard library shlex.split in POSIX mode (the
tokenizer used by `Shell.do_push`): whitespace separates tokens, single
quotes protect everything up to the closing quote, double quotes protect
everything except backslash escapes of the backslash and the double quote,
and a backslash outside quotes makes the next character literal.  Returns
none where shlex raises ValueError: an unterminated quote or a trailing
backslash. -/
def shlexGo : List Char → LexState → Bool → String → List String → Option (List String)
  | [], LexState.noQ, inWord, cur, acc => some (if inWord then acc ++ [cur] else acc)
  | [], _, _, _, _ => none
  | c :: rest, LexState.escaped, _, cur, acc => shlexGo rest LexState.noQ true (cur.push c) acc
  | c :: rest, LexState.escapedDoubleQ, _, cur, acc =>
      if c = dquote ∨ c = bslash then shlexGo rest LexState.doubleQ true (cur.push c) acc
      else shlexGo rest LexState.doubleQ true ((cur.push bslash).push c) acc
  | c :: rest, LexState.singleQ, _, cur, acc =>
      if c = squote then shlexGo rest LexState.noQ true cur acc
      else shlexGo rest LexState.singleQ true (cur.push c) acc
  | c :: rest, LexState.doubleQ, _, cur, acc =>
      if c = dquote then shlexGo rest LexState.noQ true cur acc
      else if c = bslash then shlexGo rest LexState.escapedDoubleQ true cur acc
      else shlexGo rest LexState.doubleQ true (cur.push c) acc
  | c :: rest, LexState.noQ, inWord, cur, acc =>
      if c ∈ spaceChars then
        if inWord then shlexGo rest LexState.noQ false "" (acc ++ [cur])
        else shlexGo rest LexState.noQ false "" acc
      else if c = squote then shlexGo rest LexState.singleQ true cur acc
      else if c = dquote then shlexGo rest LexState.doubleQ true cur acc
      else if c = bslash then shlexGo rest LexState.escaped true cur acc
      else shlexGo rest LexState.noQ true (cur.push c) acc

/-- Modelled from the Python standard library: shlex.split of a whole
argument string. -/
def shlexSplit (s : String) : Option (List String) :=
  shlexGo s.data LexState.noQ false "" []

/-- Translated from `Shell.do_push` (shell.py lines 97-99): every token of
the shlex-split argument string is interpreted relative to the tracked root
by prepending the letters subtree, and the resulting explicit (possibly
empty) list is handed to the push operation.  none models the ValueError a
malformed quoted string raises before push is reached. -/
def do_push (arg : String) : Option (List String) :=
  (shlexSplit arg).map (fun fs => fs.map (fun filename => "xsl/letters/" ++ filename))

/-- The operator's selection in the inquirer prompt of
`Shell.handle_exception` (shell.py line 153). -/
inductive DebugChoice where
  | restartBrowser
  | debugIpdb
  | debugPdb
  | exitShell
  deriving DecidableEq

/-- Observable side effects of the shell's error handler and exit paths. -/
inductive Effect where
  | printTraceback
  | printInquirerHint
  | printIpdbHint
  | postMortem
  | restartWorker
  | closeWorker
  | exitProcess (code : Nat)
  deriving DecidableEq

/-- Whether an effect terminates the process. -/
def Effect.isExit : Effect → Bool
  | Effect.exitProcess _ => true
  | _ => false

/-- How a handler run ends: control returns to the command loop, or the
process terminates. -/
inductive Outcome where
  | returnToLoop
  | terminated
  deriving DecidableEq

/-- A run of the exception handler: the effects it performs, in order, and
how it ends. -/
structure HandlerRun where
  effects : List Effect
  outcome : Outcome
  deriving DecidableEq

/-- Translated from `Shell.handle_exception` (shell.py lines 144-171).  The
exception and traceback are always printed first.  When inquirer is missing
(or lacks List), a hint is printed and the fall-through closes the worker
and exits.  Otherwise the operator chooses: restarting the browser restarts
the worker and returns to the loop; choosing ipdb with ipdb missing prints a
hint and exits with status 1 directly; the remaining choices (a completed
post-mortem, or Exit) fall through to `worker.close()` followed by
`sys.exit()`. -/
def handle_exception (inquirerAvailable : Bool) (choice : DebugChoice)
    (ipdbAvailable : Bool) : HandlerRun :=
  if inquirerAvailable = false then
    ⟨[Effect.printTraceback, Effect.printInquirerHint, Effect.closeWorker,
      Effect.exitProcess 0], Outcome.terminated⟩
  else
    match choice with
    | DebugChoice.debugIpdb =>
        if ipdbAvailable then
          ⟨[Effect.printTraceback, Effect.postMortem, Effect.closeWorker,
            Effect.exitProcess 0], Outcome.terminated⟩
        else
          ⟨[Effect.printTraceback, Effect.printIpdbHint, Effect.exitProcess 1],
           Outcome.terminated⟩
    | DebugChoice.debugPdb =>
        ⟨[Effect.printTraceback, Effect.postMortem, Effect.closeWorker,
          Effect.exitProcess 0], Outcome.terminated⟩
    | DebugChoice.restartBrowser =>
        ⟨[Effect.printTraceback, Effect.restartWorker], Outcome.returnToLoop⟩
    | DebugChoice.exitShell =>
        ⟨[Effect.printTraceback, Effect.closeWorker, Effect.exitProcess 0],
         Outcome.terminated⟩

/-- A run of `Shell.execute`: how many times the wrapped command function was
invoked, and the exception-handler run when the single invocation raised. -/
structure ExecResult where
  fnInvocations : Nat
  handler : Option HandlerRun
  deriving DecidableEq

/-- Translated from `Shell.execute` (shell.py lines 177-186): the wrapped
operation is invoked exactly once inside the try block — there is no retry
loop — and when that single invocation raises, control goes to
`handle_exception`. -/
def execute (raised : Bool) (inquirerAvailable : Bool) (choice : DebugChoice)
    (ipdbAvailable : Bool) : ExecResult :=
  ⟨1, if raised then some (handle_exception inquirerAvailable choice ipdbAvailable) else none⟩

/-- Translated from `Shell.do_exit` (shell.py lines 71-74): close the worker,
then terminate the process. -/
def do_exit : List Effect := [Effect.closeWorker, Effect.exitProcess 0]

/-- Alias `do_EOF = do_exit` (shell.py line 140); the cmd loop feeds the
literal line EOF on end-of-file input. -/
def do_EOF : List Effect := do_exit

/-- Alias `do_eof = do_EOF` (shell.py line 141). -/
def do_eof : List Effect := do_EOF

/-- Alias `do_quit = do_exit` (shell.py line 142). -/
def do_quit : List Effect := do_exit

/-- The handlers the cmd-style dynamic dispatch of Shell can reach. -/
inductive Handler where
  | exitH
  | pullH
  | defaultsH
  | pushH
  | testH
  | helpH
  | unknown
  deriving DecidableEq

/-- Translated from the do_* method table of Shell: the cmd framework
dispatches command word c to method do_c when it exists; exit, quit, EOF and
eof all name the same function object `do_exit`. -/
def dispatch (c : String) : Handler :=
  if c = "exit" then Handler.exitH
  else if c = "quit" then Handler.exitH
  else if c = "EOF" then Handler.exitH
  else if c = "eof" then Handler.exitH
  else if c = "pull" then Handler.pullH
  else if c = "defaults" then Handler.defaultsH
  else if c = "push" then Handler.pushH
  else if c = "test" then Handler.testH
  else if c = "help" then Handler.helpH
  else Handler.unknown

/-- Observable effects of `main` (shell.py lines 193-201). -/
inductive MainEffect where
  | printNoConfig
  | constructShell
  | runCmdloop
  deriving DecidableEq

/-- Translated from `main` (shell.py lines 193-201): when slipsomat.cfg does
not exist in the working directory, print the message and return; otherwise
construct the Shell (which connects the worker, loads the status file and
reads the table) and enter the command loop.  `cfgExists` models the result
of `os.path.exists` on slipsomat.cfg. -/
def main (cfgExists : Bool) : List MainEffect :=
  if cfgExists = false then [MainEffect.printNoConfig]
  else [MainEffect.constructShell, MainEffect.runCmdloop]

/-- State of the command loop that the empty-line behaviour touches:
`cmd.Cmd.lastcmd`, the last nonempty command line. -/
structure CmdState where
  lastcmd : String
  deriving DecidableEq

/-- Translated from `Shell.precmd` (shell.py lines 188-190): every input line
is stripped of leading and trailing whitespace before dispatch. -/
def precmd (line : String) : String := pyStrip line

/-- The identifier characters of the Python cmd module (letters, digits and
the underscore). -/
def identChar (c : Char) : Bool := c.isAlphanum || c = Char.ofNat 95

/-- Modelled from the Python standard library cmd.Cmd.parseline: an empty
line parses to nothing; otherwise the longest identifier head is the command
word and the stripped remainder the argument. -/
def parseline (line : String) : Option (String × String) :=
  if line = "" then none
  else some (⟨line.data.takeWhile identChar⟩, pyStrip ⟨line.data.dropWhile identChar⟩)

/-- Translated from `Shell.emptyline` (shell.py lines 67-69): pass — an empty
line executes nothing and changes nothing. -/
def emptylineShell (st : CmdState) : CmdState × Option (String × String) := (st, none)

/-- Modelled from the Python standard library cmd.Cmd.emptyline default
behaviour, which the Shell override replaces: when lastcmd is nonempty, the
last command is executed again. -/
def emptylineCmdDefault (st : CmdState) : CmdState × Option (String × String) :=
  if st.lastcmd = "" then (st, none) else (st, parseline st.lastcmd)

/-- One iteration of the cmd command loop with a given empty-line hook: the
input line goes through `precmd` (stripping), an empty result goes to the
hook, and a nonempty result updates lastcmd (cleared for the EOF pseudo
line) and dispatches the parsed command word and argument. -/
def cmdStepWith (handleEmpty : CmdState → CmdState × Option (String × String))
    (st : CmdState) (input : String) : CmdState × Option (String × String) :=
  match parseline (precmd input) with
  | none => handleEmpty st
  | some ca => (⟨if precmd input = "EOF" then "" else precmd input⟩, some ca)

/-- One iteration of the command loop of Shell (with its overriding
`emptyline`). -/
def cmdStep (st : CmdState) (input : String) : CmdState × Option (String × String) :=
  cmdStepWith emptylineShell st input

/-- One iteration of the command loop as it would behave with the default
cmd.Cmd.emptyline (repeat the last command), for contrast with the Shell
override. -/
def cmdStepDefaultEmpty (st : CmdState) (input : String) :
    CmdState × Option (String × String) :=
  cmdStepWith emptylineCmdDefault st input

/-! ## Helper lemmas on the association stores -/

theorem assocGet_set_self {α : Type} (l : List (Path × α)) (p : Path) (v : α) :
    assocGet (assocSet l p v) p = some v := by
  induction l with
  | nil => simp [assocGet, assocSet]
  | cons e t ih =>
      by_cases h : e.1 = p
      · simp [assocSet, h, assocGet]
      · simp [assocSet, h, assocGet, ih]

theorem assocGet_set_other {α : Type} {p q : Path} (h : q ≠ p) (l : List (Path × α))
    (v : α) : assocGet (assocSet l p v) q = assocGet l q := by
  induction l with
  | nil => simp [assocGet, assocSet, Ne.symm h]
  | cons e t ih =>
      by_cases he : e.1 = p
      · subst he
        simp [assocSet, assocGet, Ne.symm h, fun hq : e.1 = q => h hq.symm]
      · simp [assocSet, he, assocGet, ih]

theorem remoteGet_put_content (l : List RemoteEntry) (p : Path) (c : Content) :
    ∃ d, remoteGet (remotePut l p c) p = some ⟨p, c, d⟩ := by
  induction l with
  | nil => exact ⟨false, by simp [remoteGet, remotePut]⟩
  | cons e t ih =>
      by_cases h : e.path = p
      · exact ⟨e.isDefault, by simp [remotePut, h, remoteGet]⟩
      · obtain ⟨d, hd⟩ := ih
        exact ⟨d, by simp [remotePut, h, remoteGet, hd]⟩

theorem remoteGet_put_other {p q : Path} (h : q ≠ p) (l : List RemoteEntry)
    (c : Content) : remoteGet (remotePut l p c) q = remoteGet l q := by
  induction l with
  | nil => simp [remoteGet, remotePut, Ne.symm h]
  | cons e t ih =>
      by_cases he : e.path = p
      · simp [remotePut, he, remoteGet, Ne.symm h]
      · simp [remotePut, he, remoteGet, ih]

theorem remoteGet_of_mem_nodup (l : List RemoteEntry) (e : RemoteEntry)
    (hm : e ∈ l) (hnd : (l.map RemoteEntry.path).Nodup) :
    remoteGet l e.path = some e := by
  induction l with
  | nil => cases hm
  | cons a t ih =>
      rcases List.mem_cons.mp hm with rfl | hmt
      · simp [remoteGet]
      · have hne : a.path ≠ e.path := by
          intro hq
          have : e.path ∈ t.map RemoteEntry.path := List.mem_map_of_mem _ hmt
          simp only [List.map_cons, List.nodup_cons] at hnd
          exact hnd.1 (hq ▸ this)
        have hndt : (t.map RemoteEntry.path).Nodup := by
          simp only [List.map_cons, List.nodup_cons] at hnd
          exact hnd.2
        simp [remoteGet, hne, ih hmt hndt]

/-! ## Helper lemmas on classification -/

theorem classify_conflicted_of (h0 h1 h2 : Fingerprint) (h10 : h1 ≠ h0)
    (h20 : h2 ≠ h0) (h12 : h1 ≠ h2) :
    classify (some h1) (some h2) (some h0) = EntryState.conflicted := by
  simp [classify, h10, h20, h12]

theorem classify_refl_some (f : Fingerprint) :
    classify (some f) (some f) (some f) = EntryState.unchanged := by
  simp [classify]

/-! ## Helper lemmas on pull -/

theorem pullOne_world_fields (w : World) (e : RemoteEntry) :
    (pullOne w e).world.remote = w.remote ∧
    (pullOne w e).world.ioFailures = w.ioFailures ∧
    (pullOne w e).world.rejects = w.rejects := by
  by_cases hio : e.path ∈ w.ioFailures <;>
    rcases hc : classify (w.localFp e.path) (some (fingerprintOf e.content))
        (w.ledgerFp e.path) with _ | _ | _ | _ | _ | _ <;>
    simp [pullOne, hc, pullApply, hio, World.writeLocal, World.setLedger]

theorem pullOne_preserve_other (w : World) (e : RemoteEntry) (p : Path)
    (h : e.path ≠ p) :
    (pullOne w e).world.localContent p = w.localContent p ∧
    (pullOne w e).world.ledgerFp p = w.ledgerFp p ∧
    p ∉ (pullOne w e).writes := by
  by_cases hio : e.path ∈ w.ioFailures <;>
    rcases hc : classify (w.localFp e.path) (some (fingerprintOf e.content))
        (w.ledgerFp e.path) with _ | _ | _ | _ | _ | _ <;>
    simp only [pullOne, hc] <;>
    simp [pullApply, hio, World.writeLocal, World.setLedger, World.localContent,
      World.ledgerFp, assocGet_set_other (Ne.symm h), Ne.symm h]

theorem pullOne_self_noop (w : World) (e : RemoteEntry) :
    (pullOne (pullOne w e).world e).world = (pullOne w e).world ∧
    (pullOne (pullOne w e).world e).writes = [] := by
  by_cases hio : e.path ∈ w.ioFailures <;>
    rcases hc : classify (w.localFp e.path) (some (fingerprintOf e.content))
        (w.ledgerFp e.path) with _ | _ | _ | _ | _ | _ <;>
    simp only [pullOne, hc] <;>
    try (simp [pullApply, hio, pullOne, hc]; done)
  all_goals
    have hl : ((w.writeLocal e.path e.content).setLedger e.path
        (fingerprintOf e.content)).localFp e.path = some (fingerprintOf e.content) := by
      simp [World.setLedger, World.writeLocal, World.localFp, World.localContent,
        assocGet_set_self]
  all_goals
    have hg : ((w.writeLocal e.path e.content).setLedger e.path
        (fingerprintOf e.content)).ledgerFp e.path = some (fingerprintOf e.content) := by
      simp [World.setLedger, World.writeLocal, World.ledgerFp, assocGet_set_self]
  all_goals
    rw [show pullApply w e =
        ⟨(w.writeLocal e.path e.content).setLedger e.path (fingerprintOf e.content), [],
          [e.path]⟩ from by simp [pullApply, hio]]
  all_goals simp [pullOne, hl, hg, classify_refl_some]

theorem pull_fold_world_fields (L : List RemoteEntry) (acc : OpResult) :
    (L.foldl pullStep acc).world.remote = acc.world.remote ∧
    (L.foldl pullStep acc).world.ioFailures = acc.world.ioFailures ∧
    (L.foldl pullStep acc).world.rejects = acc.world.rejects := by
  induction L generalizing acc with
  | nil => simp
  | cons e t ih =>
      have h := pullOne_world_fields acc.world e
      have ht := ih (pullStep acc e)
      simp only [List.foldl_cons]
      exact ⟨ht.1.trans h.1, ht.2.1.trans h.2.1, ht.2.2.trans h.2.2⟩

theorem pull_fold_reports_extend (L : List RemoteEntry) (acc : OpResult) :
    ∃ rs, (L.foldl pullStep acc).reports = acc.reports ++ rs := by
  induction L generalizing acc with
  | nil => exact ⟨[], by simp⟩
  | cons e t ih =>
      obtain ⟨rs, hrs⟩ := ih (pullStep acc e)
      refine ⟨(pullOne acc.world e).reports ++ rs, ?_⟩
      simp only [List.foldl_cons]
      rw [hrs]
      simp [pullStep, List.append_assoc]

theorem pull_fold_preserve_other (L : List RemoteEntry) (p : Path)
    (hL : ∀ e ∈ L, e.path ≠ p) (acc : OpResult) :
    (L.foldl pullStep acc).world.localContent p = acc.world.localContent p ∧
    (L.foldl pullStep acc).world.ledgerFp p = acc.world.ledgerFp p ∧
    (p ∈ (L.foldl pullStep acc).writes ↔ p ∈ acc.writes) := by
  induction L generalizing acc with
  | nil => simp
  | cons e t ih =>
      have he := pullOne_preserve_other acc.world e p (hL e (List.mem_cons_self e t))
      have iht := ih (fun x hx => hL x (List.mem_cons_of_mem e hx)) (pullStep acc e)
      simp only [List.foldl_cons]
      refine ⟨iht.1.trans he.1, iht.2.1.trans he.2.1, ?_⟩
      rw [iht.2.2]
      simp [pullStep, List.mem_append, he.2.2]

theorem pull_fold_noop (L : List RemoteEntry) (acc : OpResult)
    (h : ∀ e ∈ L, (pullOne acc.world e).world = acc.world ∧
      (pullOne acc.world e).writes = []) :
    (L.foldl pullStep acc).world = acc.world ∧
    (L.foldl pullStep acc).writes = acc.writes := by
  induction L generalizing acc with
  | nil => simp
  | cons e t ih =>
      have he := h e (List.mem_cons_self e t)
      have hstep : (pullStep acc e).world = acc.world ∧
          (pullStep acc e).writes = acc.writes := by
        simp [pullStep, he.1, he.2]
      have iht := ih (pullStep acc e) (fun x hx => by
        rw [hstep.1]
        exact h x (List.mem_cons_of_mem e hx))
      simp only [List.foldl_cons]
      exact ⟨iht.1.trans hstep.1, iht.2.trans hstep.2⟩

theorem pullOne_noop_transfer (w1 w2 : World) (e : RemoteEntry)
    (hlc : w2.localContent e.path = w1.localContent e.path)
    (hlg : w2.ledgerFp e.path = w1.ledgerFp e.path)
    (hio2 : w2.ioFailures = w1.ioFailures)
    (h : (pullOne w1 e).world = w1 ∧ (pullOne w1 e).writes = []) :
    (pullOne w2 e).world = w2 ∧ (pullOne w2 e).writes = [] := by
  have hfp : w2.localFp e.path = w1.localFp e.path := by
    simp [World.localFp, hlc]
  have hc2 : classify (w2.localFp e.path) (some (fingerprintOf e.content))
      (w2.ledgerFp e.path) = classify (w1.localFp e.path) (some (fingerprintOf e.content))
      (w1.ledgerFp e.path) := by rw [hfp, hlg]
  rcases hc : classify (w1.localFp e.path) (some (fingerprintOf e.content))
      (w1.ledgerFp e.path) with _ | _ | _ | _ | _ | _ <;>
    rw [hc] at hc2 <;>
    by_cases hio : e.path ∈ w1.ioFailures <;>
    first
      | (simp [pullOne, hc2, pullApply, hio2, hio]; done)
      | (simp [pullOne, hc, pullApply, hio] at h)

theorem nodup_cons_paths (a : RemoteEntry) (t : List RemoteEntry)
    (h : ((a :: t).map RemoteEntry.path).Nodup) :
    (∀ x ∈ t, x.path ≠ a.path) ∧ (t.map RemoteEntry.path).Nodup := by
  simp only [List.map_cons, List.nodup_cons] at h
  refine ⟨fun x hx hq => h.1 ?_, h.2⟩
  exact hq ▸ List.mem_map_of_mem RemoteEntry.path hx

theorem pull_fold_noop_after (L : List RemoteEntry)
    (hnd : (L.map RemoteEntry.path).Nodup) (acc : OpResult) :
    ∀ e ∈ L,
      (pullOne (L.foldl pullStep acc).world e).world = (L.foldl pullStep acc).world ∧
      (pullOne (L.foldl pullStep acc).world e).writes = [] := by
  induction L generalizing acc with
  | nil => intro e he; cases he
  | cons a t ih =>
      obtain ⟨hne, hndt⟩ := nodup_cons_paths a t hnd
      intro e he
      rcases List.mem_cons.mp he with rfl | het
      · have h0 : (pullOne (pullStep acc e).world e).world = (pullStep acc e).world ∧
            (pullOne (pullStep acc e).world e).writes = [] :=
          pullOne_self_noop acc.world e
        have hpres := pull_fold_preserve_other t e.path hne (pullStep acc e)
        have hio := (pull_fold_world_fields t (pullStep acc e)).2.1
        simp only [List.foldl_cons]
        exact pullOne_noop_transfer (pullStep acc e).world
          (t.foldl pullStep (pullStep acc e)).world e hpres.1 hpres.2.1 hio h0
      · simp only [List.foldl_cons]
        exact ih hndt (pullStep acc a) e het

theorem pullOne_cases (w : World) (e : RemoteEntry) :
    ((pullOne w e).world = w ∧ (pullOne w e).writes = []) ∨
    (e.path ∉ w.ioFailures ∧
      pullOne w e = ⟨(w.writeLocal e.path e.content).setLedger e.path
        (fingerprintOf e.content), [], [e.path]⟩) := by
  by_cases hio : e.path ∈ w.ioFailures <;>
    rcases hc : classify (w.localFp e.path) (some (fingerprintOf e.content))
        (w.ledgerFp e.path) with _ | _ | _ | _ | _ | _ <;>
    simp [pullOne, hc, pullApply, hio]

theorem nodup_filter_paths (l : List RemoteEntry) (f : RemoteEntry → Bool)
    (h : (l.map RemoteEntry.path).Nodup) :
    ((l.filter f).map RemoteEntry.path).Nodup :=
  List.Nodup.sublist (List.Sublist.map RemoteEntry.path (List.filter_sublist l)) h

theorem mem_filter_mem (l : List RemoteEntry) (f : RemoteEntry → Bool) :
    ∀ x ∈ l.filter f, x ∈ l := fun _ hx => (List.mem_filter.mp hx).1

/-! ## Helper lemmas on push -/

theorem pushOne_cases (w : World) (p : Path) :
    ((pushOne w p).world = w ∧ (pushOne w p).writes = []) ∨
    (∃ bytes, w.localContent p = some bytes ∧ (p, bytes) ∉ w.rejects ∧
      pushOne w p = ⟨(w.putRemote p bytes).setLedger p (fingerprintOf bytes), [], [p]⟩) := by
  by_cases h1 : classify (w.localFp p) (w.remoteFp p) (w.ledgerFp p) = EntryState.conflicted
  · left
    simp [pushOne, h1]
  · by_cases h2 : classify (w.localFp p) (w.remoteFp p) (w.ledgerFp p) =
        EntryState.locallyModified ∨ w.remoteFp p = none
    · rcases hlc : w.localContent p with _ | bytes
      · left
        simp [pushOne, h1, h2, hlc]
      · by_cases hrej : (p, bytes) ∈ w.rejects
        · left
          simp [pushOne, h1, h2, hlc, hrej]
        · right
          exact ⟨bytes, rfl, hrej, by simp [pushOne, h1, h2, hlc, hrej]⟩
    · have hlm : ¬ classify (w.localFp p) (w.remoteFp p) (w.ledgerFp p) =
          EntryState.locallyModified := fun hh => h2 (Or.inl hh)
      have hrf : ¬ w.remoteFp p = none := fun hh => h2 (Or.inr hh)
      by_cases h3 : classify (w.localFp p) (w.remoteFp p) (w.ledgerFp p) =
          EntryState.remotelyModified
      · left
        simp [pushOne, h1, hlm, hrf, h3]
      · left
        simp [pushOne, h1, hlm, hrf, h3]

theorem pushOne_world_fields (w : World) (p : Path) :
    (pushOne w p).world.localFiles = w.localFiles ∧
    (pushOne w p).world.ioFailures = w.ioFailures ∧
    (pushOne w p).world.rejects = w.rejects := by
  rcases pushOne_cases w p with ⟨hw, _⟩ | ⟨bytes, _, _, hone⟩
  · rw [hw]
    exact ⟨rfl, rfl, rfl⟩
  · rw [hone]
    exact ⟨rfl, rfl, rfl⟩

theorem pushOne_preserve_other (w : World) (p q : Path) (h : p ≠ q) :
    (pushOne w p).world.ledgerFp q = w.ledgerFp q ∧
    (pushOne w p).world.remoteFp q = w.remoteFp q ∧
    (pushOne w p).world.localFp q = w.localFp q ∧
    q ∉ (pushOne w p).writes := by
  rcases pushOne_cases w p with ⟨hw, hws⟩ | ⟨bytes, _, _, hone⟩
  · rw [hw, hws]
    simp
  · rw [hone]
    refine ⟨?_, ?_, rfl, ?_⟩
    · simp [World.setLedger, World.putRemote, World.ledgerFp,
        assocGet_set_other (Ne.symm h)]
    · simp [World.setLedger, World.putRemote, World.remoteFp, World.remoteEntry,
        remoteGet_put_other (Ne.symm h)]
    · simp [Ne.symm h]

theorem pushOne_noop_of_tri (w : World) (p : Path) (f : Fingerprint)
    (hg : w.ledgerFp p = some f) (hl : w.localFp p = some f)
    (hr : w.remoteFp p = some f) :
    pushOne w p = ⟨w, [], []⟩ := by
  simp [pushOne, hg, hl, hr, classify_refl_some]

theorem pull_fold_inv (w0 : World) (p : Path) (g0 : Option Fingerprint)
    (hnd : (w0.remote.map RemoteEntry.path).Nodup) :
    ∀ L : List RemoteEntry, (∀ x ∈ L, x ∈ w0.remote) →
    ∀ acc : OpResult, acc.world.remote = w0.remote →
    (p ∈ acc.writes → ∃ f, acc.world.ledgerFp p = some f ∧
      acc.world.localFp p = some f ∧ acc.world.remoteFp p = some f) →
    (p ∉ acc.writes → acc.world.ledgerFp p = g0) →
    (p ∈ (L.foldl pullStep acc).writes → ∃ f,
      (L.foldl pullStep acc).world.ledgerFp p = some f ∧
      (L.foldl pullStep acc).world.localFp p = some f ∧
      (L.foldl pullStep acc).world.remoteFp p = some f) ∧
    (p ∉ (L.foldl pullStep acc).writes →
      (L.foldl pullStep acc).world.ledgerFp p = g0) := by
  intro L
  induction L with
  | nil =>
      intro _ acc _ hin hout
      exact ⟨hin, hout⟩
  | cons e t ih =>
      intro hsub acc hrem hin hout
      simp only [List.foldl_cons]
      have hrem' : (pullStep acc e).world.remote = w0.remote :=
        (pullOne_world_fields acc.world e).1.trans hrem
      refine ih (fun x hx => hsub x (List.mem_cons_of_mem e hx)) (pullStep acc e) hrem' ?_ ?_
      · -- the write-success invariant for the extended accumulator
        by_cases hep : e.path = p
        · subst hep
          rcases pullOne_cases acc.world e with ⟨hw, hws⟩ | ⟨hio, hone⟩
          · intro hmem
            have hmem' : e.path ∈ acc.writes := by
              rcases List.mem_append.mp hmem with h | h
              · exact h
              · rw [hws] at h
                cases h
            obtain ⟨f, h1, h2, h3⟩ := hin hmem'
            exact ⟨f, by rw [show (pullStep acc e).world = acc.world from hw]; exact h1,
              by rw [show (pullStep acc e).world = acc.world from hw]; exact h2,
              by rw [show (pullStep acc e).world = acc.world from hw]; exact h3⟩
          · intro _
            refine ⟨fingerprintOf e.content, ?_, ?_, ?_⟩
            · show (pullOne acc.world e).world.ledgerFp e.path = _
              rw [hone]
              simp [World.setLedger, World.writeLocal, World.ledgerFp, assocGet_set_self]
            · show (pullOne acc.world e).world.localFp e.path = _
              rw [hone]
              simp [World.setLedger, World.writeLocal, World.localFp, World.localContent,
                assocGet_set_self]
            · show (pullOne acc.world e).world.remoteFp e.path = _
              simp [World.remoteFp, World.remoteEntry,
                (pullOne_world_fields acc.world e).1, hrem,
                remoteGet_of_mem_nodup w0.remote e (hsub e (List.mem_cons_self e t)) hnd]
        · intro hmem
          have hpre := pullOne_preserve_other acc.world e p hep
          have hmem' : p ∈ acc.writes := by
            rcases List.mem_append.mp hmem with h | h
            · exact h
            · exact absurd h hpre.2.2
          obtain ⟨f, h1, h2, h3⟩ := hin hmem'
          refine ⟨f, hpre.2.1.trans h1, ?_, ?_⟩
          · show (pullOne acc.world e).world.localFp p = _
            rw [show (pullOne acc.world e).world.localFp p = acc.world.localFp p from by
              simp [World.localFp, hpre.1]]
            exact h2
          · show (pullOne acc.world e).world.remoteFp p = _
            rw [show (pullOne acc.world e).world.remoteFp p = acc.world.remoteFp p from by
              simp [World.remoteFp, World.remoteEntry, (pullOne_world_fields acc.world e).1]]
            exact h3
      · -- the no-write invariant for the extended accumulator
        intro hmem
        have hnm : p ∉ acc.writes := fun h =>
          hmem (List.mem_append.mpr (Or.inl h))
        by_cases hep : e.path = p
        · subst hep
          rcases pullOne_cases acc.world e with ⟨hw, _⟩ | ⟨hio, hone⟩
          · rw [show (pullStep acc e).world = acc.world from hw]
            exact hout hnm
          · exfalso
            apply hmem
            have hww : (pullStep acc e).writes = acc.writes ++ [e.path] := by
              show acc.writes ++ (pullOne acc.world e).writes = _
              rw [hone]
            rw [hww]
            exact List.mem_append.mpr (Or.inr (List.mem_singleton.mpr rfl))
        · exact (pullOne_preserve_other acc.world e p hep).2.1.trans (hout hnm)

theorem push_fold_inv (p : Path) (g0 : Option Fingerprint) :
    ∀ L : List Path, ∀ acc : OpResult,
    (p ∈ acc.writes → ∃ f, acc.world.ledgerFp p = some f ∧
      acc.world.localFp p = some f ∧ acc.world.remoteFp p = some f) →
    (p ∉ acc.writes → acc.world.ledgerFp p = g0) →
    (p ∈ (L.foldl pushStep acc).writes → ∃ f,
      (L.foldl pushStep acc).world.ledgerFp p = some f ∧
      (L.foldl pushStep acc).world.localFp p = some f ∧
      (L.foldl pushStep acc).world.remoteFp p = some f) ∧
    (p ∉ (L.foldl pushStep acc).writes →
      (L.foldl pushStep acc).world.ledgerFp p = g0) := by
  intro L
  induction L with
  | nil =>
      intro acc hin hout
      exact ⟨hin, hout⟩
  | cons q t ih =>
      intro acc hin hout
      simp only [List.foldl_cons]
      refine ih (pushStep acc q) ?_ ?_
      · by_cases hqp : q = p
        · subst hqp
          rcases pushOne_cases acc.world q with ⟨hw, hws⟩ | ⟨bytes, hb, _, hone⟩
          · intro hmem
            have hmem' : q ∈ acc.writes := by
              rcases List.mem_append.mp hmem with h | h
              · exact h
              · rw [hws] at h
                cases h
            obtain ⟨f, h1, h2, h3⟩ := hin hmem'
            exact ⟨f, by rw [show (pushStep acc q).world = acc.world from hw]; exact h1,
              by rw [show (pushStep acc q).world = acc.world from hw]; exact h2,
              by rw [show (pushStep acc q).world = acc.world from hw]; exact h3⟩
          · intro _
            refine ⟨fingerprintOf bytes, ?_, ?_, ?_⟩
            · show (pushOne acc.world q).world.ledgerFp q = _
              rw [hone]
              simp [World.setLedger, World.putRemote, World.ledgerFp, assocGet_set_self]
            · show (pushOne acc.world q).world.localFp q = _
              rw [hone]
              simp only [World.setLedger, World.putRemote, World.localFp, World.localContent]
              show (assocGet acc.world.localFiles q).map fingerprintOf = _
              rw [show assocGet acc.world.localFiles q = some bytes from hb]
              rfl
            · show (pushOne acc.world q).world.remoteFp q = _
              rw [hone]
              obtain ⟨d, hd⟩ := remoteGet_put_content acc.world.remote q bytes
              simp [World.setLedger, World.putRemote, World.remoteFp, World.remoteEntry, hd]
        · intro hmem
          have hpre := pushOne_preserve_other acc.world q p hqp
          have hmem' : p ∈ acc.writes := by
            rcases List.mem_append.mp hmem with h | h
            · exact h
            · exact absurd h hpre.2.2.2
          obtain ⟨f, h1, h2, h3⟩ := hin hmem'
          exact ⟨f, hpre.1.trans h1, hpre.2.2.1.trans h2, hpre.2.1.trans h3⟩
      · intro hmem
        have hnm : p ∉ acc.writes := fun h =>
          hmem (List.mem_append.mpr (Or.inl h))
        by_cases hqp : q = p
        · subst hqp
          rcases pushOne_cases acc.world q with ⟨hw, _⟩ | ⟨bytes, _, _, hone⟩
          · rw [show (pushStep acc q).world = acc.world from hw]
            exact hout hnm
          · exfalso
            apply hmem
            have hww : (pushStep acc q).writes = acc.writes ++ [q] := by
              show acc.writes ++ (pushOne acc.world q).writes = _
              rw [hone]
            rw [hww]
            exact List.mem_append.mpr (Or.inr (List.mem_singleton.mpr rfl))
        · exact (pushOne_preserve_other acc.world q p hqp).1.trans (hout hnm)

theorem nodup_append_cons_paths (L1 L2 : List RemoteEntry) (e : RemoteEntry)
    (h : (((L1 ++ e :: L2)).map RemoteEntry.path).Nodup) :
    (∀ x ∈ L1, x.path ≠ e.path) ∧ (∀ x ∈ L2, x.path ≠ e.path) := by
  rw [List.map_append, List.map_cons] at h
  obtain ⟨h1, h2, hdisj⟩ := List.nodup_append.mp h
  constructor
  · intro x hx hq
    exact hdisj (hq ▸ List.mem_map_of_mem RemoteEntry.path hx)
      (List.mem_cons_self e.path (L2.map RemoteEntry.path))
  · intro x hx hq
    exact (List.nodup_cons.mp h2).1 (hq ▸ List.mem_map_of_mem RemoteEntry.path hx)

/-! ## The claims -/

/-- Claim C1: for every tracked path whose ledger fingerprint is H0, if the
local fingerprint has become H1 ≠ H0 and the remote fingerprint has
independently become H2 ≠ H0 with H1 ≠ H2, then both the pull operation and
the push operation report a conflict for that path (a structured report
carrying the path and both fingerprints, not a fatal error — the entry is
skipped) and leave the ledger entry, the local file content, and the remote
entries unchanged. -/
theorem pull_push_conflict_detection (w : World) (e : RemoteEntry)
    (h0 h1 h2 : Fingerprint)
    (hnd : (w.remote.map RemoteEntry.path).Nodup)
    (he : e ∈ w.remote) (hdef : e.isDefault = false)
    (hl : w.localFp e.path = some h1)
    (hr : fingerprintOf e.content = h2)
    (hg : w.ledgerFp e.path = some h0)
    (h10 : h1 ≠ h0) (h20 : h2 ≠ h0) (h12 : h1 ≠ h2) :
    (Report.conflict e.path (some h1) (some h2) ∈ (pull w).reports ∧
      (pull w).world.localContent e.path = w.localContent e.path ∧
      (pull w).world.ledgerFp e.path = some h0 ∧
      (pull w).world.remote = w.remote) ∧
    (Report.conflict e.path (some h1) (some h2) ∈ (push w [e.path]).reports ∧
      (push w [e.path]).world = w) := by
  constructor
  · -- pull
    have heL : e ∈ w.remote.filter (fun x => !x.isDefault) :=
      List.mem_filter.mpr ⟨he, by simp [hdef]⟩
    obtain ⟨L1, L2, hdec⟩ := List.append_of_mem heL
    have hndL : ((w.remote.filter (fun x => !x.isDefault)).map RemoteEntry.path).Nodup :=
      nodup_filter_paths w.remote _ hnd
    rw [hdec] at hndL
    obtain ⟨hL1, hL2⟩ := nodup_append_cons_paths L1 L2 e hndL
    have hpull : pull w = ((L1 ++ e :: L2).foldl pullStep ⟨w, [], []⟩) := by
      unfold pull
      rw [hdec]
    have hpre1 := pull_fold_preserve_other L1 e.path hL1 ⟨w, [], []⟩
    set acc1 := L1.foldl pullStep ⟨w, [], []⟩ with hacc1
    have hlf1 : acc1.world.localFp e.path = some h1 := by
      rw [show acc1.world.localFp e.path = (acc1.world.localContent e.path).map fingerprintOf
        from rfl, hpre1.1]
      exact hl
    have hgf1 : acc1.world.ledgerFp e.path = some h0 := hpre1.2.1.trans hg
    have hcl : classify (acc1.world.localFp e.path) (some (fingerprintOf e.content))
        (acc1.world.ledgerFp e.path) = EntryState.conflicted := by
      rw [hlf1, hgf1, hr]
      exact classify_conflicted_of h0 h1 h2 h10 h20 h12
    have hone : pullOne acc1.world e =
        ⟨acc1.world, [Report.conflict e.path (some h1) (some h2)], []⟩ := by
      rw [show (⟨acc1.world, [Report.conflict e.path (some h1) (some h2)], []⟩ : OpResult) =
        ⟨acc1.world, [Report.conflict e.path (acc1.world.localFp e.path)
          (some (fingerprintOf e.content))], []⟩ from by rw [hlf1, hr]]
      simp [pullOne, hcl]
    have hacc2 : pullStep acc1 e =
        ⟨acc1.world, acc1.reports ++ [Report.conflict e.path (some h1) (some h2)],
          acc1.writes⟩ := by
      show (⟨(pullOne acc1.world e).world, acc1.reports ++ (pullOne acc1.world e).reports,
        acc1.writes ++ (pullOne acc1.world e).writes⟩ : OpResult) = _
      rw [hone]
      simp
    have hfold : pull w = L2.foldl pullStep (pullStep acc1 e) := by
      rw [hpull, List.foldl_append, List.foldl_cons]
    refine ⟨?_, ?_, ?_, ?_⟩
    · -- the conflict report survives the remaining entries
      obtain ⟨rs, hrs⟩ := pull_fold_reports_extend L2 (pullStep acc1 e)
      rw [hfold, hrs, hacc2]
      simp
    · -- local content at the path unchanged
      have hpre2 := pull_fold_preserve_other L2 e.path hL2 (pullStep acc1 e)
      rw [hfold, hpre2.1, hacc2]
      exact hpre1.1
    · -- ledger entry unchanged
      have hpre2 := pull_fold_preserve_other L2 e.path hL2 (pullStep acc1 e)
      rw [hfold, hpre2.2.1, hacc2]
      exact hgf1
    · -- remote store untouched
      rw [hfold]
      have hr2 := (pull_fold_world_fields L2 (pullStep acc1 e)).1
      have hr1 := (pull_fold_world_fields L1 ⟨w, [], []⟩).1
      rw [hr2, hacc2]
      exact hr1
  · -- push
    have hre : w.remoteFp e.path = some h2 := by
      simp [World.remoteFp, World.remoteEntry, remoteGet_of_mem_nodup w.remote e he hnd, hr]
    have hclw : classify (w.localFp e.path) (w.remoteFp e.path) (w.ledgerFp e.path) =
        EntryState.conflicted := by
      rw [hl, hre, hg]
      exact classify_conflicted_of h0 h1 h2 h10 h20 h12
    have hone : pushOne w e.path = ⟨w, [Report.conflict e.path (some h1) (some h2)], []⟩ := by
      rw [show (⟨w, [Report.conflict e.path (some h1) (some h2)], []⟩ : OpResult) =
        ⟨w, [Report.conflict e.path (w.localFp e.path) (w.remoteFp e.path)], []⟩ from by
          rw [hl, hre]]
      simp [pushOne, hclw]
    constructor
    · show Report.conflict e.path (some h1) (some h2) ∈
        ([] ++ (pushOne w e.path).reports)
      rw [hone]
      simp
    · show (pushOne w e.path).world = w
      rw [hone]

/-- Witness for the conflict-detection theorem at a concrete store state:
ledger fingerprint H0, local fingerprint L1, remote fingerprint R2. -/
theorem pull_push_conflict_detection_witness :
    ((conflictWorld.remote.map RemoteEntry.path).Nodup ∧
      conflictEntry ∈ conflictWorld.remote ∧
      conflictEntry.isDefault = false ∧
      conflictWorld.localFp conflictEntry.path = some "L1" ∧
      fingerprintOf conflictEntry.content = "R2" ∧
      conflictWorld.ledgerFp conflictEntry.path = some "H0") ∧
    (Report.conflict conflictEntry.path (some "L1") (some "R2") ∈
        (pull conflictWorld).reports ∧
      (push conflictWorld [conflictEntry.path]).world = conflictWorld) := by
  have h := pull_push_conflict_detection conflictWorld conflictEntry "H0" "L1" "R2"
    (by decide) (by decide) (by decide) (by decide) (by decide) (by decide)
    (by decide) (by decide) (by decide)
  exact ⟨⟨by decide, by decide, by decide, by decide, by decide, by decide⟩,
    h.1.1, h.2.2⟩

/-- Claim C2: for every entry and every run of pull or push, when the apply
step for a path succeeded (the path is among the operation's recorded
writes) the ledger fingerprint of that path is set to the fingerprint that
is now true on both the local and the remote side, and when no apply step
for that path succeeded (including a RemoteRejected put, a local IOError, a
skip, or a conflict) the ledger entry for that path is not mutated. -/
theorem ledger_advance_iff_apply (w : World) (p : Path) (paths : List Path)
    (hnd : (w.remote.map RemoteEntry.path).Nodup) :
    (p ∈ (pull w).writes → ∃ f, (pull w).world.ledgerFp p = some f ∧
      (pull w).world.localFp p = some f ∧ (pull w).world.remoteFp p = some f) ∧
    (p ∉ (pull w).writes → (pull w).world.ledgerFp p = w.ledgerFp p) ∧
    (p ∈ (push w paths).writes → ∃ f, (push w paths).world.ledgerFp p = some f ∧
      (push w paths).world.localFp p = some f ∧
      (push w paths).world.remoteFp p = some f) ∧
    (p ∉ (push w paths).writes → (push w paths).world.ledgerFp p = w.ledgerFp p) := by
  have hpull := pull_fold_inv w p (w.ledgerFp p) hnd
    (w.remote.filter (fun e => !e.isDefault)) (mem_filter_mem w.remote _) ⟨w, [], []⟩ rfl
    (fun h => absurd h (List.not_mem_nil p)) (fun _ => rfl)
  have hpush := push_fold_inv p (w.ledgerFp p) paths ⟨w, [], []⟩
    (fun h => absurd h (List.not_mem_nil p)) (fun _ => rfl)
  exact ⟨hpull.1, hpull.2, hpush.1, hpush.2⟩

/-- Witness for the ledger-advance theorem: pushing the locally modified
entry records a write and leaves ledger, local and remote fingerprints all
equal; the untouched path keeps its ledger entry. -/
theorem ledger_advance_iff_apply_witness :
    ((localEditWorld.remote.map RemoteEntry.path).Nodup ∧
      "a" ∈ (push localEditWorld ["a"]).writes ∧
      "b" ∉ (push localEditWorld ["a"]).writes) ∧
    (∃ f, (push localEditWorld ["a"]).world.ledgerFp "a" = some f ∧
      (push localEditWorld ["a"]).world.localFp "a" = some f ∧
      (push localEditWorld ["a"]).world.remoteFp "a" = some f) ∧
    (push localEditWorld ["a"]).world.ledgerFp "b" = localEditWorld.ledgerFp "b" := by
  have ha := ledger_advance_iff_apply localEditWorld "a" ["a"] (by decide)
  have hb := ledger_advance_iff_apply localEditWorld "b" ["a"] (by decide)
  exact ⟨⟨by decide, by decide, by decide⟩, ha.2.2.1 (by decide), hb.2.2.2 (by decide)⟩

/-- Claim C3: pull and push are idempotent — running pull a second time on
the state a pull produced (no intervening remote changes) performs zero
local writes and zero ledger or store mutations, and pushing a path whose
push was just applied again (no local edits in between) performs zero
remote writes and changes nothing. -/
theorem pull_push_idempotent (w : World) (paths : List Path)
    (hnd : (w.remote.map RemoteEntry.path).Nodup) :
    ((pull (pull w).world).writes = [] ∧
      (pull (pull w).world).world = (pull w).world) ∧
    (∀ p, p ∈ (push w paths).writes →
      (push (push w paths).world [p]).writes = [] ∧
      (push (push w paths).world [p]).world = (push w paths).world) := by
  constructor
  · have hndL := nodup_filter_paths w.remote (fun e => !e.isDefault) hnd
    have hnoop := pull_fold_noop_after (w.remote.filter (fun e => !e.isDefault)) hndL
      ⟨w, [], []⟩
    have hrem : (pull w).world.remote = w.remote :=
      (pull_fold_world_fields (w.remote.filter (fun e => !e.isDefault)) ⟨w, [], []⟩).1
    have hsecond : pull (pull w).world =
        ((pull w).world.remote.filter (fun e => !e.isDefault)).foldl pullStep
          ⟨(pull w).world, [], []⟩ := rfl
    rw [hrem] at hsecond
    have happly := pull_fold_noop (w.remote.filter (fun e => !e.isDefault))
      ⟨(pull w).world, [], []⟩ (fun e hx => hnoop e hx)
    rw [hsecond]
    exact ⟨happly.2, happly.1⟩
  · intro p hp
    have htri := (push_fold_inv p (w.ledgerFp p) paths ⟨w, [], []⟩
      (fun h => absurd h (List.not_mem_nil p)) (fun _ => rfl)).1 hp
    obtain ⟨f, hg, hl, hr⟩ := htri
    have hnoop := pushOne_noop_of_tri (push w paths).world p f hg hl hr
    constructor
    · show ([] ++ (pushOne (push w paths).world p).writes) = []
      rw [hnoop]
      rfl
    · show (pushOne (push w paths).world p).world = _
      rw [hnoop]

/-- Witness for the idempotence theorem: pulling the remotely modified entry
then pulling again performs no write, and pushing the locally modified
entry then pushing it again performs no remote write. -/
theorem pull_push_idempotent_witness :
    ((remoteEditWorld.remote.map RemoteEntry.path).Nodup ∧
      (localEditWorld.remote.map RemoteEntry.path).Nodup ∧
      (pull remoteEditWorld).writes = ["a"] ∧
      "a" ∈ (push localEditWorld ["a"]).writes) ∧
    ((pull (pull remoteEditWorld).world).writes = [] ∧
      (push (push localEditWorld ["a"]).world ["a"]).writes = []) := by
  have h1 := pull_push_idempotent remoteEditWorld [] (by decide)
  have h2 := pull_push_idempotent localEditWorld ["a"] (by decide)
  exact ⟨⟨by decide, by decide, by decide, by decide⟩,
    h1.1.1, (h2.2 "a" (by decide)).1⟩

/-- Claim C4 (counterexample): the claim predicts that for every test
argument containing an at-sign the language list passed to the test
operation is the comma-separated codes after the at-sign; but for an
argument with two at-signs the tuple unpacking of the split raises
ValueError, so the test operation is never invoked at all. -/
theorem do_test_multi_at_counterexample :
    do_test (fun pat => [pat]) "a@b@c" = DoTestResult.valueError ∧
    (pySplit (Char.ofNat 64) "a@b@c").length = 3 := by
  decide

/-- Claim C4 (amended): with no at-sign in the argument the language list
passed to the test operation is exactly ["en"]; with exactly one at-sign the
languages are the comma-separated codes after it and the file pattern the
part before it, expanded by glob under the test-data directory; with more
than one at-sign the tuple unpacking fails with ValueError and the test
operation is not invoked. -/
theorem do_test_language_parsing (g : String → List String) (arg fs ls : String) :
    (pySplit (Char.ofNat 64) arg = [fs] →
      do_test g arg =
        (if (g (ospathJoin "test-data" fs)).length = 0 then DoTestResult.noSuchFile
         else DoTestResult.run (g (ospathJoin "test-data" fs)) ["en"])) ∧
    (pySplit (Char.ofNat 64) arg = [fs, ls] →
      do_test g arg =
        (if (g (ospathJoin "test-data" fs)).length = 0 then DoTestResult.noSuchFile
         else DoTestResult.run (g (ospathJoin "test-data" fs))
           (pySplit (Char.ofNat 44) ls))) ∧
    (3 ≤ (pySplit (Char.ofNat 64) arg).length →
      do_test g arg = DoTestResult.valueError) := by
  have hen : pySplit (Char.ofNat 44) "en" = ["en"] := by decide
  refine ⟨?_, ?_, ?_⟩
  · intro h
    simp [do_test, h, doTestRun, hen]
  · intro h
    simp [do_test, h, doTestRun]
  · intro h
    rcases hsp : pySplit (Char.ofNat 64) arg with _ | ⟨a, t1⟩
    · rw [hsp] at h
      simp at h
    · rcases t1 with _ | ⟨b, t2⟩
      · rw [hsp] at h
        simp at h
      · rcases t2 with _ | ⟨c, t3⟩
        · rw [hsp] at h
          simp at h
        · simp [do_test, hsp]

/-- Witness for the amended test-argument parsing theorem on a concrete
argument with one at-sign and two language codes. -/
theorem do_test_language_parsing_witness :
    pySplit (Char.ofNat 64) "x.xml@en,no" = ["x.xml", "en,no"] ∧
    do_test (fun pat => [pat]) "x.xml@en,no" =
      DoTestResult.run ["test-data/x.xml"] ["en", "no"] := by
  have h := (do_test_language_parsing (fun pat => [pat]) "x.xml@en,no" "x.xml"
    "en,no").2.1 (by decide)
  refine ⟨by decide, ?_⟩
  rw [h]
  decide

/-- Claim C5: each token of the shlex-split push argument string is
interpreted relative to the tracked root by prefixing the letters subtree
before being passed to the push operation, and an argument with zero tokens
passes the empty explicit path list. -/
theorem do_push_paths (arg : String) (tokens : List String)
    (h : shlexSplit arg = some tokens) :
    do_push arg = some (tokens.map (fun filename => "xsl/letters/" ++ filename)) ∧
    (tokens = [] → do_push arg = some []) ∧
    do_push "" = some [] := by
  refine ⟨by simp [do_push, h], fun ht => by simp [do_push, h, ht], by decide⟩

/-- Witness for the push-argument theorem on two concrete tokens. -/
theorem do_push_paths_witness :
    shlexSplit "a.xsl sub/b.xsl" = some ["a.xsl", "sub/b.xsl"] ∧
    do_push "a.xsl sub/b.xsl" =
      some ["xsl/letters/a.xsl", "xsl/letters/sub/b.xsl"] := by
  have h := do_push_paths "a.xsl sub/b.xsl" ["a.xsl", "sub/b.xsl"] (by decide)
  exact ⟨by decide, h.1⟩

/-- Claim C6 (counterexample): the claim says every path other than Restart
browser closes the session and terminates the process; but choosing Debug
with ipdb while ipdb is not installed terminates the process with status 1
without closing the session. -/
theorem handle_exception_ipdb_missing_counterexample :
    (handle_exception true DebugChoice.debugIpdb false).outcome =
      Outcome.terminated ∧
    Effect.closeWorker ∉ (handle_exception true DebugChoice.debugIpdb false).effects := by
  decide

/-- Claim C6 (amended): when an executed command raises, the shell surfaces
the failure (exception and traceback printed) and performs no automatic
retry (the wrapped operation is invoked exactly once); only the explicit
choice Restart browser restarts the worker and returns control to the
command loop; every other path terminates the process, closing the session
first except when Debug with ipdb is chosen and ipdb is not installed, in
which case the process exits with status 1 without closing the session. -/
theorem handle_exception_paths (raised inq ipdb : Bool) (choice : DebugChoice) :
    (execute raised inq choice ipdb).fnInvocations = 1 ∧
    (raised = true →
      (execute raised inq choice ipdb).handler =
        some (handle_exception inq choice ipdb)) ∧
    Effect.printTraceback ∈ (handle_exception inq choice ipdb).effects ∧
    ((handle_exception inq choice ipdb).outcome = Outcome.returnToLoop ↔
      inq = true ∧ choice = DebugChoice.restartBrowser) ∧
    ((handle_exception inq choice ipdb).outcome = Outcome.returnToLoop →
      Effect.restartWorker ∈ (handle_exception inq choice ipdb).effects ∧
      (handle_exception inq choice ipdb).effects.all (fun e => !e.isExit) = true ∧
      Effect.closeWorker ∉ (handle_exception inq choice ipdb).effects) ∧
    ((handle_exception inq choice ipdb).outcome = Outcome.terminated →
      (handle_exception inq choice ipdb).effects.any Effect.isExit = true ∧
      (Effect.closeWorker ∈ (handle_exception inq choice ipdb).effects ↔
        ¬(inq = true ∧ choice = DebugChoice.debugIpdb ∧ ipdb = false))) := by
  cases raised <;> cases inq <;> cases ipdb <;> cases choice <;> decide

/-- Witness for the error-handling theorem: restarting the browser returns
to the loop after a restart effect, and the Exit choice closes the
session. -/
theorem handle_exception_paths_witness :
    (handle_exception true DebugChoice.restartBrowser true).outcome =
      Outcome.returnToLoop ∧
    Effect.restartWorker ∈ (handle_exception true DebugChoice.restartBrowser true).effects ∧
    Effect.closeWorker ∈ (handle_exception true DebugChoice.exitShell true).effects := by
  have h1 := handle_exception_paths true true true DebugChoice.restartBrowser
  have h2 := handle_exception_paths true true true DebugChoice.exitShell
  exact ⟨by decide, (h1.2.2.2.2.1 (by decide)).1,
    ((h2.2.2.2.2.2 (by decide)).2).mpr (by decide)⟩

/-- Claim C7: the exit command, the quit command and end-of-file input (the
cmd loop substitutes the literal line EOF, and an eof alias exists as well)
all dispatch to the same handler, which closes the remote session before
terminating the process. -/
theorem exit_aliases_close_then_exit :
    dispatch "exit" = Handler.exitH ∧ dispatch "quit" = Handler.exitH ∧
    dispatch "EOF" = Handler.exitH ∧ dispatch "eof" = Handler.exitH ∧
    do_quit = do_exit ∧ do_EOF = do_exit ∧ do_eof = do_exit ∧
    do_exit = [Effect.closeWorker, Effect.exitProcess 0] := by
  decide

/-- Claim C8: when the glob pattern of a test command matches zero files
under the test-data directory, the shell reports the error and returns
without invoking the test operation. -/
theorem do_test_no_match_error (g : String → List String) (arg fs ls : String)
    (hparse : pySplit (Char.ofNat 64) arg = [fs] ∧ ls = "en" ∨
      pySplit (Char.ofNat 64) arg = [fs, ls])
    (hglob : g (ospathJoin "test-data" fs) = []) :
    do_test g arg = DoTestResult.noSuchFile := by
  rcases hparse with ⟨h1, _⟩ | h1 <;> simp [do_test, h1, doTestRun, hglob]

/-- Witness for the empty-glob theorem on a concrete pattern that matches
nothing. -/
theorem do_test_no_match_error_witness :
    pySplit (Char.ofNat 64) "missing.xml" = ["missing.xml"] ∧
    do_test (fun _ => ([] : List String)) "missing.xml" = DoTestResult.noSuchFile := by
  have h := do_test_no_match_error (fun _ => ([] : List String)) "missing.xml"
    "missing.xml" "en" (Or.inl ⟨by decide, rfl⟩) rfl
  exact ⟨by decide, h⟩

/-- Claim C9: when slipsomat.cfg does not exist in the working directory,
main prints the message and returns without constructing the Shell, so no
remote connection is attempted, no status file is loaded, and no command
loop starts. -/
theorem main_requires_config :
    main false = [MainEffect.printNoConfig] ∧
    MainEffect.constructShell ∉ main false ∧
    MainEffect.runCmdloop ∉ main false ∧
    main true = [MainEffect.constructShell, MainEffect.runCmdloop] := by
  decide

/-- Claim C10: every input line is stripped of leading and trailing
whitespace before dispatch, and a line that is empty after stripping
executes no command and changes no state; in particular the overridden
emptyline hook does not repeat the previous command, while the cmd default
would. -/
theorem empty_line_no_repeat (st : CmdState) (input : String) :
    (cmdStep st input).2 = parseline (pyStrip input) ∧
    (pyStrip input = "" → cmdStep st input = (st, none)) ∧
    (pyStrip input = "" → st.lastcmd ≠ "" →
      (cmdStepDefaultEmpty st input).2 = parseline st.lastcmd ∧
      (cmdStepDefaultEmpty st input).2 ≠ none) := by
  refine ⟨?_, ?_, ?_⟩
  · rcases hp : parseline (pyStrip input) with _ | ca <;>
      simp [cmdStep, cmdStepWith, precmd, hp, emptylineShell]
  · intro h
    simp [cmdStep, cmdStepWith, precmd, h, parseline, emptylineShell]
  · intro h hlast
    constructor
    · simp [cmdStepDefaultEmpty, cmdStepWith, precmd, h, parseline,
        emptylineCmdDefault, hlast]
    · simp [cmdStepDefaultEmpty, cmdStepWith, precmd, h, parseline,
        emptylineCmdDefault, hlast]

/-- Witness for the empty-line theorem: a whitespace-only line leaves the
state untouched and executes nothing, while the cmd default would have
repeated the pending pull command. -/
theorem empty_line_no_repeat_witness :
    pyStrip "   " = "" ∧ CmdState.lastcmd ⟨"pull"⟩ ≠ "" ∧
    cmdStep ⟨"pull"⟩ "   " = (⟨"pull"⟩, none) ∧
    (cmdStepDefaultEmpty ⟨"pull"⟩ "   ").2 ≠ none := by
  have h := empty_line_no_repeat ⟨"pull"⟩ "   "
  exact ⟨by decide, by decide, h.2.1 (by decide), (h.2.2 (by decide) (by decide)).2⟩

end Slipsomat
